import Mathlib

/-!
# Verification of the whiteboard drawing surface

A shallow embedding of the whiteboard component in `src/App.tsx`:
the raster pixel buffer, the export trimmer (`handleExport`), the stroke
renderer (`drawLine`), the growth policy (`extendIfNeeded`), the resize
handler (`handleResize`), the canvas reinitialisation effect, and the
pointer-event state machine, together with theorems about them.

Coordinates and CSS sizes are JavaScript numbers, embedded as `ℚ`; pixel
channels are bytes, embedded as `ℕ`.  The host 2D drawing primitive
(rasterisation and compositing) is external to the repository; where a
definition models it rather than source code, its doc comment says so.
-/

set_option autoImplicit false

namespace Whiteboard

/-- One RGBA pixel of the `PhysicalBuffer`; channels are bytes 0..255,
alpha 0 meaning fully transparent (no ink). -/
structure RGBA where
  r : Nat
  g : Nat
  b : Nat
  a : Nat
deriving DecidableEq

/-- The fully transparent pixel, the initial content of every canvas. -/
def transparent : RGBA := ⟨0, 0, 0, 0⟩

/-- The physical pixel buffer of the canvas: device-pixel dimensions plus the
pixel contents (reads outside the dimensions are not meaningful). -/
structure Buffer where
  w : Nat
  h : Nat
  pix : Nat → Nat → RGBA

/-- Inner loop of `handleExport`: row `y` has ink iff some pixel
`x < w` in it has non-zero alpha (`imgData[rowStart + x*4 + 3] !== 0`,
scanning `x` left to right and stopping at the first hit). -/
def rowHasInk (buf : Buffer) (y : Nat) : Bool :=
  (List.range buf.w).any fun x => (buf.pix x y).a != 0

/-- Outer loop of `handleExport`: scan rows `n-1, n-2, ..., 0` and return the
first row that has ink; return 0 when none does (`lastNonEmptyY` keeps its
initial value 0 in the source). -/
def scanRows (buf : Buffer) : Nat → Nat
  | 0 => 0
  | n + 1 => if rowHasInk buf n then n else scanRows buf n

/-- Variable `lastNonEmptyY` of `handleExport`: the bottommost row with ink, found by
scanning from `y = h-1` down to 0, defaulting to 0. -/
def lastNonEmptyY (buf : Buffer) : Nat := scanRows buf buf.h

/-- Function `handleExport` from the source: the export canvas has the full device
width, height `max 1 (lastNonEmptyY + 10)` (10px padding), and is filled by
`drawImage(c, 0, 0)` — a direct top-left copy of the source buffer, with
everything beyond the source extent left transparent. -/
def handleExport (buf : Buffer) : Buffer :=
  { w := buf.w
    h := max 1 (lastNonEmptyY buf + 10)
    pix := fun x y => if x < buf.w ∧ y < buf.h then buf.pix x y else transparent }

theorem rowHasInk_iff (buf : Buffer) (y : Nat) :
    rowHasInk buf y = true ↔ ∃ x, x < buf.w ∧ (buf.pix x y).a ≠ 0 := by
  simp [rowHasInk, List.any_eq_true, List.mem_range]

theorem scanRows_ink (buf : Buffer) :
    ∀ n y, y < n → rowHasInk buf y = true →
      rowHasInk buf (scanRows buf n) = true ∧ y ≤ scanRows buf n := by
  intro n
  induction n with
  | zero => intro y hy _; exact absurd hy (Nat.not_lt_zero y)
  | succ n ih =>
    intro y hy hink
    cases hn : rowHasInk buf n with
    | true =>
      have hs : scanRows buf (n + 1) = n := by simp [scanRows, hn]
      rw [hs]
      exact ⟨hn, Nat.lt_succ_iff.mp hy⟩
    | false =>
      have hs : scanRows buf (n + 1) = scanRows buf n := by simp [scanRows, hn]
      rw [hs]
      have hyn : y < n := by
        rcases Nat.lt_succ_iff_lt_or_eq.mp hy with h | h
        · exact h
        · rw [h] at hink; rw [hink] at hn; cases hn
      exact ih y hyn hink

theorem scanRows_exact (buf : Buffer) :
    ∀ n y, y < n → rowHasInk buf y = true →
      (∀ r, y < r → r < n → rowHasInk buf r = false) →
      scanRows buf n = y := by
  intro n
  induction n with
  | zero => intro y hy _ _; exact absurd hy (Nat.not_lt_zero y)
  | succ n ih =>
    intro y hy hink hnone
    rcases Nat.lt_succ_iff_lt_or_eq.mp hy with h | h
    · have hn : rowHasInk buf n = false := hnone n h (Nat.lt_succ_self n)
      have hs : scanRows buf (n + 1) = scanRows buf n := by simp [scanRows, hn]
      rw [hs]
      exact ih y h hink fun r hr1 hr2 => hnone r hr1 (Nat.lt_succ_of_lt hr2)
    · rw [h] at hink ⊢
      simp [scanRows, hink]

theorem scanRows_empty (buf : Buffer) :
    ∀ n, (∀ y, y < n → rowHasInk buf y = false) → scanRows buf n = 0 := by
  intro n
  induction n with
  | zero => intro _; simp [scanRows]
  | succ n ih =>
    intro h
    have hn : rowHasInk buf n = false := h n (Nat.lt_succ_self n)
    have hs : scanRows buf (n + 1) = scanRows buf n := by simp [scanRows, hn]
    rw [hs]
    exact ih fun y hy => h y (Nat.lt_succ_of_lt hy)

/-- C1: `export` scans rows from `y = h-1` down to 0, a row has ink iff some
pixel in it has non-zero alpha, the scan stops at the first (i.e. bottommost)
ink row — so the found index is an ink row at least as low as every other ink
row, and 0 when the buffer is blank — and the result is a buffer of width `w`
and height `max 1 (foundRowIndex + 10)` whose pixels are a direct copy of the
source buffer's top-left region (transparent past the source extent). -/
theorem handleExport_spec (buf : Buffer) :
    (handleExport buf).w = buf.w ∧
    (handleExport buf).h = max 1 (lastNonEmptyY buf + 10) ∧
    (∀ y, rowHasInk buf y = true ↔ ∃ x, x < buf.w ∧ (buf.pix x y).a ≠ 0) ∧
    (∀ y, y < buf.h → rowHasInk buf y = true →
      rowHasInk buf (lastNonEmptyY buf) = true ∧ y ≤ lastNonEmptyY buf) ∧
    ((∀ y, y < buf.h → rowHasInk buf y = false) → lastNonEmptyY buf = 0) ∧
    (∀ x y, x < buf.w → y < (handleExport buf).h →
      (handleExport buf).pix x y = if y < buf.h then buf.pix x y else transparent) := by
  refine ⟨rfl, rfl, fun y => rowHasInk_iff buf y, ?_, ?_, ?_⟩
  · exact fun y hy hink => scanRows_ink buf buf.h y hy hink
  · exact fun hnone => scanRows_empty buf buf.h hnone
  · intro x y hx _
    by_cases hyh : y < buf.h
    · simp [handleExport, hx, hyh]
    · simp [handleExport, hyh]

/-- A 2×5 buffer whose only ink pixel sits at `(1, 2)`. -/
def bufW1 : Buffer :=
  ⟨2, 5, fun x y => if x = 1 ∧ y = 2 then ⟨1, 2, 3, 9⟩ else transparent⟩

theorem handleExport_spec_witness :
    (rowHasInk bufW1 (lastNonEmptyY bufW1) = true ∧ 2 ≤ lastNonEmptyY bufW1) ∧
    (handleExport bufW1).pix 1 2 = (if 2 < bufW1.h then bufW1.pix 1 2 else transparent) := by
  have h := handleExport_spec bufW1
  exact ⟨h.2.2.2.1 2 (by decide) (by decide),
    h.2.2.2.2.2 1 2 (by decide) (by decide)⟩

/-- A 1×10 buffer whose bottommost (and only) ink row is row 0 — exactly 10
rows above the bottom edge. -/
def bufC10 : Buffer :=
  ⟨1, 10, fun x y => if x = 0 ∧ y = 0 then ⟨0, 0, 0, 255⟩ else transparent⟩

/-- C10 counterexample: in `bufC10` the bottommost ink row is `y = 0 = h - 10`,
yet the exported height is `0 + 10 = 10 = h` — it does not exceed the source
buffer height, refuting the claim at the boundary `y = h - 10`. -/
theorem export_pad_counterexample :
    rowHasInk bufC10 0 = true ∧
    (∀ r, r < bufC10.h → 0 < r → rowHasInk bufC10 r = false) ∧
    bufC10.h - 10 ≤ 0 ∧
    (handleExport bufC10).h = bufC10.h ∧
    ¬ bufC10.h < (handleExport bufC10).h := by
  decide

/-- C10 (amended): when the bottommost ink row `y` is within 9 rows of the
bottom edge (`h ≤ y + 9`), the exported height `y + 10` strictly exceeds the
source height `h`, the extra rows below the source extent are fully
transparent, and the crop height is never capped at the source height. -/
theorem export_pad_overflow (buf : Buffer) (y : Nat)
    (hy : y < buf.h) (hink : rowHasInk buf y = true)
    (hmax : ∀ r, y < r → r < buf.h → rowHasInk buf r = false)
    (hnear : buf.h ≤ y + 9) :
    (handleExport buf).h = y + 10 ∧
    buf.h < (handleExport buf).h ∧
    (∀ x r, x < buf.w → buf.h ≤ r → r < (handleExport buf).h →
      (handleExport buf).pix x r = transparent) := by
  have hfound : lastNonEmptyY buf = y := scanRows_exact buf buf.h y hy hink hmax
  have hh : (handleExport buf).h = y + 10 := by
    show max 1 (lastNonEmptyY buf + 10) = y + 10
    rw [hfound]
    omega
  refine ⟨hh, ?_, ?_⟩
  · rw [hh]; omega
  · intro x r _ hr1 _
    have : ¬ r < buf.h := Nat.not_lt.mpr hr1
    simp [handleExport, this]

/-- A 1×10 buffer whose bottommost ink row is row 5 (within 9 rows of the
bottom edge). -/
def bufW10 : Buffer :=
  ⟨1, 10, fun x y => if x = 0 ∧ y = 5 then ⟨0, 0, 0, 255⟩ else transparent⟩

theorem export_pad_overflow_witness :
    (handleExport bufW10).h = 15 ∧
    bufW10.h < (handleExport bufW10).h ∧
    (handleExport bufW10).pix 0 12 = transparent := by
  have hnone : ∀ r, r < bufW10.h → 5 < r → rowHasInk bufW10 r = false := by decide
  have h := export_pad_overflow bufW10 5 (by decide) (by decide)
    (fun r h1 h2 => hnone r h2 h1) (by decide)
  exact ⟨h.1.trans (by norm_num), h.2.1, h.2.2 0 12 (by decide) (by decide) (by decide)⟩

/-- Utility `clamp` from the source: `Math.max(min, Math.min(max, v))`. -/
def clamp (v mi ma : ℚ) : ℚ := max mi (min ma v)

/-- The active tool, set by the UI chrome. -/
inductive Tool where
  | pen
  | eraser
deriving DecidableEq

/-- A logical-space point (CSS-pixel coordinates). -/
structure Pt where
  x : ℚ
  y : ℚ
deriving DecidableEq

/-- A rasteriser: which pixel cell `(x, y)` a stroked segment — endpoints and
(already clamped) line width — covers.  The actual rasteriser is the host 2D
primitive, external to the repository, so theorems quantify over it. -/
abbrev Cov : Type := Pt → Pt → ℚ → Nat → Nat → Bool

/-- Modelled from the spec: the host primitive's standard alpha-over
compositing (`source-over`, the pen rule), in premultiplied-alpha byte form;
the source code only selects this rule, the blending itself is external. -/
def sourceOver (s d : RGBA) : RGBA :=
  ⟨s.r + d.r * (255 - s.a) / 255, s.g + d.g * (255 - s.a) / 255,
   s.b + d.b * (255 - s.a) / 255, s.a + d.a * (255 - s.a) / 255⟩

/-- Modelled from the spec: the host primitive's clear-destination compositing
(`destination-out`, the eraser rule): every destination channel is scaled by
the complement of the source alpha, so an opaque source clears the pixel. -/
def destinationOut (s d : RGBA) : RGBA :=
  ⟨d.r * (255 - s.a) / 255, d.g * (255 - s.a) / 255,
   d.b * (255 - s.a) / 255, d.a * (255 - s.a) / 255⟩

/-- Function `drawLine` from the source: clamps the width to `[1, 64]`, then strokes
the segment with round caps and joins — covered pixels are composited
`source-over` with the (opaque) pen color in pen mode, and `destination-out`
with `rgba(0,0,0,1)` in eraser mode; other pixels are untouched. -/
def drawLine (cov : Cov) (tool : Tool) (color : RGBA) (size : ℚ) (p q : Pt)
    (buf : Buffer) : Buffer :=
  { buf with pix := fun x y =>
      if (cov p q (clamp size 1 64) x y) then
        match tool with
        | Tool.pen => sourceOver color (buf.pix x y)
        | Tool.eraser => destinationOut ⟨0, 0, 0, 255⟩ (buf.pix x y)
      else buf.pix x y }

/-- Squared distance from a point to the closed unit pixel cell
`[x, x+1] × [y, y+1]` (zero when the point lies inside the cell). -/
def distSqToCell (p : Pt) (x y : Nat) : ℚ :=
  (p.x - clamp p.x (x : ℚ) ((x : ℚ) + 1))^2 +
  (p.y - clamp p.y (y : ℚ) ((y : ℚ) + 1))^2

/-- Squared distance from the centre of pixel cell `(x, y)` to the closed
segment from `a` to `b` (via projection, clamped to the segment). -/
def segDistSqToCenter (a b : Pt) (x y : Nat) : ℚ :=
  let cx : ℚ := (x : ℚ) + 1/2
  let cy : ℚ := (y : ℚ) + 1/2
  let dx := b.x - a.x
  let dy := b.y - a.y
  let len2 := dx^2 + dy^2
  let t := if len2 = 0 then 0
           else clamp (((cx - a.x) * dx + (cy - a.y) * dy) / len2) 0 1
  (cx - (a.x + t * dx))^2 + (cy - (a.y + t * dy))^2

/-- Modelled from the spec: the host stroking primitive with round caps and
joins — a pixel is covered when its cell meets the cap disk of radius
`width / 2` at either endpoint, or its centre lies within `width / 2` of the
segment body. -/
def covModel : Cov := fun a b w x y =>
  decide (distSqToCell a x y ≤ (w / 2)^2 ∨ distSqToCell b x y ≤ (w / 2)^2 ∨
          segDistSqToCenter a b x y ≤ (w / 2)^2)

/-- C4: along the same path with the same width, a fully opaque pen stroke
followed by an eraser stroke leaves every covered pixel with alpha 0
(pen then eraser equals clear there), while the opposite order leaves alpha
255 — the two operations do not commute. -/
theorem pen_then_eraser_clears (cov : Cov) (color : RGBA) (size : ℚ)
    (p q : Pt) (buf : Buffer) (x y : Nat)
    (hop : color.a = 255)
    (hcov : cov p q (clamp size 1 64) x y = true) :
    ((drawLine cov Tool.eraser color size p q
        (drawLine cov Tool.pen color size p q buf)).pix x y).a = 0 ∧
    ((drawLine cov Tool.pen color size p q
        (drawLine cov Tool.eraser color size p q buf)).pix x y).a = 255 := by
  constructor
  · simp [drawLine, hcov, destinationOut]
  · simp [drawLine, hcov, sourceOver, hop]

/-- A rasteriser covering exactly the pixel cell `(0, 0)`. -/
def covOne : Cov := fun _ _ _ x y => x == 0 && y == 0

/-- An empty (fully transparent) 4×4 buffer. -/
def bufEmpty : Buffer := ⟨4, 4, fun _ _ => transparent⟩

theorem pen_then_eraser_clears_witness :
    ((drawLine covOne Tool.eraser ⟨17, 17, 17, 255⟩ 4 ⟨0, 0⟩ ⟨1, 1⟩
        (drawLine covOne Tool.pen ⟨17, 17, 17, 255⟩ 4 ⟨0, 0⟩ ⟨1, 1⟩ bufEmpty)).pix 0 0).a = 0 ∧
    ((drawLine covOne Tool.pen ⟨17, 17, 17, 255⟩ 4 ⟨0, 0⟩ ⟨1, 1⟩
        (drawLine covOne Tool.eraser ⟨17, 17, 17, 255⟩ 4 ⟨0, 0⟩ ⟨1, 1⟩ bufEmpty)).pix 0 0).a = 255 :=
  pen_then_eraser_clears covOne ⟨17, 17, 17, 255⟩ 4 ⟨0, 0⟩ ⟨1, 1⟩ bufEmpty 0 0 rfl rfl

/-- C7: a zero-length segment (stationary pointer) with requested width in
`[1, 64]` is stroked as a round cap of radius `width / 2`, not skipped: the
pixel cell containing the point is covered, and in pen mode (opaque color) it
acquires non-zero alpha. -/
theorem zero_length_dot (p : Pt) (wq : ℚ) (color : RGBA) (buf : Buffer)
    (h1 : 1 ≤ wq) (h64 : wq ≤ 64) (hx : 0 ≤ p.x) (hy : 0 ≤ p.y)
    (hop : color.a = 255) :
    covModel p p (clamp wq 1 64) (⌊p.x⌋.toNat) (⌊p.y⌋.toNat) = true ∧
    ((drawLine covModel Tool.pen color wq p p buf).pix
        (⌊p.x⌋.toNat) (⌊p.y⌋.toNat)).a ≠ 0 := by
  have hcellx : clamp p.x ((⌊p.x⌋.toNat : Nat) : ℚ) (((⌊p.x⌋.toNat : Nat) : ℚ) + 1) = p.x := by
    have hcast : ((⌊p.x⌋.toNat : Nat) : ℚ) = ((⌊p.x⌋ : ℤ) : ℚ) := by
      exact_mod_cast congrArg (fun z : ℤ => (z : ℚ))
        (Int.toNat_of_nonneg (Int.floor_nonneg.mpr hx))
    rw [hcast]
    unfold clamp
    rw [min_eq_right (le_of_lt (Int.lt_floor_add_one p.x)),
        max_eq_right (Int.floor_le p.x)]
  have hcelly : clamp p.y ((⌊p.y⌋.toNat : Nat) : ℚ) (((⌊p.y⌋.toNat : Nat) : ℚ) + 1) = p.y := by
    have hcast : ((⌊p.y⌋.toNat : Nat) : ℚ) = ((⌊p.y⌋ : ℤ) : ℚ) := by
      exact_mod_cast congrArg (fun z : ℤ => (z : ℚ))
        (Int.toNat_of_nonneg (Int.floor_nonneg.mpr hy))
    rw [hcast]
    unfold clamp
    rw [min_eq_right (le_of_lt (Int.lt_floor_add_one p.y)),
        max_eq_right (Int.floor_le p.y)]
  have hzero : distSqToCell p (⌊p.x⌋.toNat) (⌊p.y⌋.toNat) = 0 := by
    unfold distSqToCell
    rw [hcellx, hcelly]
    ring
  have hcov : covModel p p (clamp wq 1 64) (⌊p.x⌋.toNat) (⌊p.y⌋.toNat) = true := by
    unfold covModel
    apply decide_eq_true
    exact Or.inl (by rw [hzero]; positivity)
  refine ⟨hcov, ?_⟩
  simp [drawLine, hcov, sourceOver, hop]

theorem zero_length_dot_witness :
    covModel ⟨2, 3⟩ ⟨2, 3⟩ (clamp 4 1 64) 2 3 = true ∧
    ((drawLine covModel Tool.pen ⟨17, 17, 17, 255⟩ 4 ⟨2, 3⟩ ⟨2, 3⟩ bufEmpty).pix 2 3).a ≠ 0 := by
  have h := zero_length_dot ⟨2, 3⟩ 4 ⟨17, 17, 17, 255⟩ bufEmpty (by norm_num) (by norm_num)
    (by norm_num) (by norm_num) rfl
  have f2 : ⌊(2 : ℚ)⌋ = 2 := by norm_num
  have f3 : ⌊(3 : ℚ)⌋ = 3 := by norm_num
  have e2 : (⌊(2 : ℚ)⌋).toNat = 2 := by rw [f2]; rfl
  have e3 : (⌊(3 : ℚ)⌋).toNat = 3 := by rw [f3]; rfl
  simpa [e2, e3] using h

theorem clamp_idem (v : ℚ) : clamp (clamp v 1 64) 1 64 = clamp v 1 64 := by
  unfold clamp
  have h1 : (1 : ℚ) ≤ max 1 (min 64 v) := le_max_left _ _
  have h2 : max (1 : ℚ) (min 64 v) ≤ 64 := max_le (by norm_num) (min_le_left _ _)
  rw [min_eq_right h2, max_eq_right h1]

/-- C9: `drawLine` clamps the requested width to `[1, 64]` before use —
drawing with any requested width equals drawing with the clamped width, the
clamped width always lies in `[1, 64]`, and in particular a request of 200
draws with effective width 64 and a request of 0 with effective width 1. -/
theorem width_clamped (cov : Cov) (tool : Tool) (color : RGBA) (p q : Pt)
    (buf : Buffer) (size : ℚ) :
    drawLine cov tool color size p q buf
      = drawLine cov tool color (clamp size 1 64) p q buf ∧
    clamp (200 : ℚ) 1 64 = 64 ∧
    clamp (0 : ℚ) 1 64 = 1 ∧
    1 ≤ clamp size 1 64 ∧ clamp size 1 64 ≤ 64 := by
  refine ⟨?_, ?_, ?_, le_max_left _ _, max_le (by norm_num) (min_le_left _ _)⟩
  · unfold drawLine
    rw [clamp_idem]
  · unfold clamp
    rw [min_eq_left (by norm_num : (64 : ℚ) ≤ 200), max_eq_right (by norm_num : (1 : ℚ) ≤ 64)]
  · unfold clamp
    rw [min_eq_right (by norm_num : (0 : ℚ) ≤ 64), max_eq_left (by norm_num : (0 : ℚ) ≤ 1)]

/-- The canvas (re)initialisation effect from the source: the new physical
dimensions are `floor(logical × dpr)`; the previous content is restored with
`drawImage(prev, 0, 0, prev.width / dpr, prev.height / dpr)` under a transform
scaled by the (new) `dpr` — a raw 1:1 physical-pixel top-left copy, clipped to
both the old and the new extents; everything else starts transparent. -/
def reinitCanvas (buf : Buffer) (logicalW logicalH dpr : ℚ) : Buffer :=
  { w := (⌊logicalW * dpr⌋).toNat
    h := (⌊logicalH * dpr⌋).toNat
    pix := fun x y =>
      if (x < buf.w ∧ y < buf.h ∧ x < (⌊logicalW * dpr⌋).toNat ∧ y < (⌊logicalH * dpr⌋).toNat)
      then buf.pix x y
      else transparent }

/-- The component state: tool state from the UI, the stroke session
(`isDrawing`, `lastPoint`), the logical canvas size, the device scale factor,
and the physical buffer. -/
structure WB where
  tool : Tool
  color : RGBA
  size : ℚ
  isDrawing : Bool
  lastPoint : Option Pt
  width : ℚ
  height : ℚ
  dpr : ℚ
  buf : Buffer

/-- Handler `startDraw`: pointer-down opens a stroke session at the local point. -/
def startDraw (s : WB) (p : Pt) : WB :=
  { s with isDrawing := true, lastPoint := some p }

/-- Function `extendIfNeeded` from the source: if drawing within 200 logical pixels of
the bottom, grow the logical height by 1000; otherwise leave it unchanged. -/
def extendIfNeeded (height y : ℚ) : ℚ :=
  if height - y < 200 then height + 1000 else height

/-- Handler `onPointerMove` from the source: a no-op unless a session is active
(`isDrawing` with a recorded `lastPoint`); otherwise draw a segment from the
last point, record the new point, and run the growth check — a height change
retriggers the reinitialisation effect on the buffer. -/
def onPointerMove (cov : Cov) (s : WB) (p : Pt) : WB :=
  match s.isDrawing, s.lastPoint with
  | true, some lp =>
    let buf1 := drawLine cov s.tool s.color s.size lp p s.buf
    let newH := extendIfNeeded s.height p.y
    let buf2 := if (newH = s.height) then buf1 else reinitCanvas buf1 s.width newH s.dpr
    { s with lastPoint := some p, height := newH, buf := buf2 }
  | _, _ => s

/-- Handler `endDrawUp`: pointer-up clears the stroke session. -/
def endDrawUp (s : WB) : WB := { s with isDrawing := false, lastPoint := none }

/-- Handler `endDrawCancel`: pointer-cancel clears the stroke session. -/
def endDrawCancel (s : WB) : WB := { s with isDrawing := false, lastPoint := none }

/-- Handler `endDrawLeave`: pointer-leave clears the stroke session. -/
def endDrawLeave (s : WB) : WB := { s with isDrawing := false, lastPoint := none }

/-- Handler `endDrawOut`: pointer-out clears the stroke session. -/
def endDrawOut (s : WB) : WB := { s with isDrawing := false, lastPoint := none }

/-- Handler `handleClear`: resets every pixel to fully transparent; the logical size
and scale factor are untouched. -/
def handleClear (s : WB) : WB :=
  { s with buf := { s.buf with pix := fun _ _ => transparent } }

/-- Handler `handleResize` from the source: the scale factor becomes
`max(devicePixelRatio || 1, 1)` and the logical width becomes
`max(800, containerWidth - 32)`; the height is kept.  A changed width or
scale retriggers the reinitialisation effect on the buffer. -/
def handleResize (s : WB) (containerWidth dprRaw : ℚ) : WB :=
  { s with
    width := max 800 (containerWidth - 32)
    dpr := max (if (dprRaw = 0) then 1 else dprRaw) 1
    buf :=
      if (max 800 (containerWidth - 32) = s.width ∧
          max (if (dprRaw = 0) then 1 else dprRaw) 1 = s.dpr)
      then s.buf
      else reinitCanvas s.buf (max 800 (containerWidth - 32)) s.height
        (max (if (dprRaw = 0) then 1 else dprRaw) 1) }

/-- The input-boundary events of the component. -/
inductive Event where
  | down (p : Pt)
  | move (p : Pt)
  | up
  | cancel
  | leave
  | out
  | resize (containerWidth dprRaw : ℚ)
  | clear
  | save

/-- One step of the event-driven control loop, dispatching to the source's
handlers; `save` (the export button) reads the buffer but changes no state. -/
def step (cov : Cov) (s : WB) : Event → WB
  | Event.down p => startDraw s p
  | Event.move p => onPointerMove cov s p
  | Event.up => endDrawUp s
  | Event.cancel => endDrawCancel s
  | Event.leave => endDrawLeave s
  | Event.out => endDrawOut s
  | Event.resize cw d => handleResize s cw d
  | Event.clear => handleClear s
  | Event.save => s

/-- A rasteriser that covers nothing (used to instantiate witnesses). -/
def covTriv : Cov := fun _ _ _ _ _ => false

/-- A drawing-in-progress state with logical height 400 and last point
`(10, 10)`. -/
def s400 : WB :=
  { tool := Tool.pen, color := ⟨17, 17, 17, 255⟩, size := 4, isDrawing := true,
    lastPoint := some ⟨10, 10⟩, width := 1600, height := 400, dpr := 1,
    buf := bufEmpty }

/-- C2: the growth check grows the height by exactly 1000 when
`height - y < 200` and leaves it unchanged otherwise; in particular, in a
drawing session with height 400, a move to `y = 210` grows the height to
1400 and an immediately following move to `y = 211` causes no further
growth. -/
theorem extendIfNeeded_spec (cov : Cov) (h y : ℚ) :
    (h - y < 200 → extendIfNeeded h y = h + 1000) ∧
    (200 ≤ h - y → extendIfNeeded h y = h) ∧
    (step cov s400 (Event.move ⟨10, 210⟩)).height = 1400 ∧
    (step cov (step cov s400 (Event.move ⟨10, 210⟩)) (Event.move ⟨10, 211⟩)).height = 1400 := by
  refine ⟨?_, ?_, ?_, ?_⟩
  · intro hlt
    rw [extendIfNeeded, if_pos hlt]
  · intro hge
    rw [extendIfNeeded, if_neg (not_lt.mpr hge)]
  · show (onPointerMove cov s400 ⟨10, 210⟩).height = 1400
    norm_num [onPointerMove, s400, extendIfNeeded]
  · show (onPointerMove cov (onPointerMove cov s400 ⟨10, 210⟩) ⟨10, 211⟩).height = 1400
    norm_num [onPointerMove, s400, extendIfNeeded]

theorem extendIfNeeded_spec_witness :
    extendIfNeeded 400 210 = 400 + 1000 ∧ extendIfNeeded 1400 211 = 1400 :=
  ⟨(extendIfNeeded_spec covTriv 400 210).1 (by norm_num),
   (extendIfNeeded_spec covTriv 1400 211).2.1 (by norm_num)⟩

/-- C5: a pointer-move while no session is active (`isDrawing = false`)
changes nothing — in particular it does not mutate the pixel buffer — and
each of pointer-up, pointer-cancel, pointer-leave and pointer-out returns the
machine to Idle and clears the session's last point. -/
theorem idle_and_session_end (cov : Cov) (s : WB) (p : Pt) :
    (s.isDrawing = false → step cov s (Event.move p) = s) ∧
    ((step cov s Event.up).isDrawing = false ∧ (step cov s Event.up).lastPoint = none) ∧
    ((step cov s Event.cancel).isDrawing = false ∧ (step cov s Event.cancel).lastPoint = none) ∧
    ((step cov s Event.leave).isDrawing = false ∧ (step cov s Event.leave).lastPoint = none) ∧
    ((step cov s Event.out).isDrawing = false ∧ (step cov s Event.out).lastPoint = none) := by
  refine ⟨?_, ⟨rfl, rfl⟩, ⟨rfl, rfl⟩, ⟨rfl, rfl⟩, ⟨rfl, rfl⟩⟩
  intro hidle
  show onPointerMove cov s p = s
  cases hlp : s.lastPoint <;> simp [onPointerMove, hidle, hlp]

/-- An Idle state (no active session). -/
def sIdle : WB :=
  { tool := Tool.pen, color := ⟨17, 17, 17, 255⟩, size := 4, isDrawing := false,
    lastPoint := none, width := 1600, height := 1400, dpr := 1, buf := bufEmpty }

theorem idle_and_session_end_witness :
    step covTriv sIdle (Event.move ⟨5, 5⟩) = sIdle :=
  (idle_and_session_end covTriv sIdle ⟨5, 5⟩).1 rfl

/-- C6: across every operation — pointer events, resize, growth, clear,
export — the logical canvas height never decreases; a resize keeps the height
exactly, and growth only adds to it. -/
theorem height_monotonic (cov : Cov) (s : WB) (e : Event) :
    s.height ≤ (step cov s e).height ∧
    (∀ cw d, (step cov s (Event.resize cw d)).height = s.height) := by
  refine ⟨?_, fun cw d => rfl⟩
  cases e with
  | move p =>
    show s.height ≤ (onPointerMove cov s p).height
    cases hd : s.isDrawing with
    | false => cases hlp : s.lastPoint <;> simp [onPointerMove, hd, hlp]
    | true =>
      cases hlp : s.lastPoint with
      | none => simp [onPointerMove, hd, hlp]
      | some lp =>
        simp only [onPointerMove, hd, hlp]
        show s.height ≤ extendIfNeeded s.height p.y
        rw [extendIfNeeded]
        split
        · linarith
        · exact le_refl _
  | down p => exact le_refl _
  | up => exact le_refl _
  | cancel => exact le_refl _
  | leave => exact le_refl _
  | out => exact le_refl _
  | resize cw d => exact le_refl _
  | clear => exact le_refl _
  | save => exact le_refl _

/-- A state whose last valid configuration is width 1600 and scale factor 2. -/
def sC8 : WB :=
  { tool := Tool.pen, color := ⟨17, 17, 17, 255⟩, size := 4, isDrawing := false,
    lastPoint := none, width := 1600, height := 1400, dpr := 2, buf := bufEmpty }

/-- C8 counterexample: a resize notification carrying container width 0 and
scale factor 0 (both non-positive) is not a no-op — the width 1600 is replaced
by 800 and the scale factor 2 by 1, so the last valid configuration is not
retained. -/
theorem resize_nonpositive_counterexample :
    (step covTriv sC8 (Event.resize 0 0)).width = 800 ∧
    sC8.width = 1600 ∧
    (step covTriv sC8 (Event.resize 0 0)).dpr = 1 ∧
    sC8.dpr = 2 ∧
    ¬ step covTriv sC8 (Event.resize 0 0) = sC8 := by
  have hw : (step covTriv sC8 (Event.resize 0 0)).width = 800 := by
    show max 800 ((0 : ℚ) - 32) = 800
    rw [max_eq_left (by norm_num : (0 : ℚ) - 32 ≤ 800)]
  have hd : (step covTriv sC8 (Event.resize 0 0)).dpr = 1 := by
    show max (if ((0 : ℚ) = 0) then 1 else 0) 1 = 1
    rw [if_pos rfl, max_self]
  refine ⟨hw, rfl, hd, rfl, fun heq => ?_⟩
  have hcontra := congrArg WB.width heq
  rw [hw] at hcontra
  norm_num [sC8] at hcontra

/-- C8 (amended): a configuration update carrying a non-positive container
width or scale factor is absorbed without error, but is not a no-op: the
width is clamped to 800 and the scale factor to 1, while the logical height
is retained. -/
theorem resize_nonpositive_clamps (cov : Cov) (s : WB) (cw d : ℚ)
    (hcw : cw ≤ 0) (hd : d ≤ 0) :
    (step cov s (Event.resize cw d)).width = 800 ∧
    (step cov s (Event.resize cw d)).dpr = 1 ∧
    (step cov s (Event.resize cw d)).height = s.height := by
  refine ⟨?_, ?_, rfl⟩
  · show max 800 (cw - 32) = 800
    exact max_eq_left (by linarith)
  · show max (if (d = 0) then 1 else d) 1 = 1
    by_cases h0 : d = 0
    · rw [if_pos h0, max_self]
    · rw [if_neg h0]
      exact max_eq_right (by linarith)

theorem resize_nonpositive_clamps_witness :
    (step covTriv sC8 (Event.resize (-5) (-1))).width = 800 ∧
    (step covTriv sC8 (Event.resize (-5) (-1))).dpr = 1 ∧
    (step covTriv sC8 (Event.resize (-5) (-1))).height = sC8.height :=
  resize_nonpositive_clamps covTriv sC8 (-5) (-1) (by norm_num) (by norm_num)

/-- A 4×4 buffer at scale factor 1 holding one ink pixel at physical `(1, 1)`,
i.e. a dot drawn along the logical square `[1, 2] × [1, 2]`. -/
def bufC3 : Buffer :=
  ⟨4, 4, fun x y => if (x = 1 ∧ y = 1) then ⟨17, 17, 17, 255⟩ else transparent⟩

/-- C3: evaluating the reinitialisation at the failing input — `bufC3` (drawn
at scale 1), logical size 4×4, new scale factor 2.  The new 8×8 buffer keeps
the ink at physical `(1, 1)`, while the stroke's logical square `[1, 2]²`
rendered at the new scale — physical rows and columns 2..3 — has alpha 0
everywhere: the raw 1:1 copy does not re-render old content at the new
scale, so the stroke is no longer on its logical-space path. -/
theorem reinit_scale_change_moves_content :
    (reinitCanvas bufC3 4 4 2).w = 8 ∧
    (reinitCanvas bufC3 4 4 2).h = 8 ∧
    ((reinitCanvas bufC3 4 4 2).pix 1 1).a = 255 ∧
    ((reinitCanvas bufC3 4 4 2).pix 2 2).a = 0 ∧
    ((reinitCanvas bufC3 4 4 2).pix 2 3).a = 0 ∧
    ((reinitCanvas bufC3 4 4 2).pix 3 2).a = 0 ∧
    ((reinitCanvas bufC3 4 4 2).pix 3 3).a = 0 := by
  have hfloor : (⌊(4 : ℚ) * 2⌋).toNat = 8 := by
    have h8 : ⌊(4 : ℚ) * 2⌋ = 8 := by norm_num
    rw [h8]
    rfl
  refine ⟨hfloor, hfloor, ?_, ?_, ?_, ?_, ?_⟩ <;>
    simp [reinitCanvas, bufC3, hfloor, transparent]

end Whiteboard
